import Mathlib

/-!
# Verification of `ascii_art.py` (`image_to_ascii`)

A shallow embedding of the converter in `src/ascii_art.py` and proofs of the
specified properties.  Python strings are modelled as `List Char`, Python
`int` as `Int`/`Nat`, Python `float` as exact rationals `ℚ`, and the raised
exceptions as an explicit error type returned through `Except`.

Image decoding and resizing are performed by Pillow, an external collaborator
of this repository; they are modelled abstractly by a `PyImage` structure
carrying a deterministic `resize` function together with the guarantees
Pillow provides for a mode-"L" image: `getdata()` after `resize((w, h))`
yields exactly `w * h` grayscale samples, each in `[0, 255]`.
-/

set_option autoImplicit false

/-- The exceptions `image_to_ascii` can raise: `FileNotFoundError` (with the
offending path) and `ValueError` (with the message string). -/
inductive PyError where
  | fileNotFound : String → PyError
  | valueError : String → PyError
deriving DecidableEq, Repr

/-- A decoded grayscale ("L"-mode) bitmap, as handed over by Pillow.
`resize w h` models `img.resize((w, h))` followed by `getdata()`:
a deterministic resampling producing the flat row-major pixel sequence.
The two laws are Pillow's guarantees for an L-mode image: the data of a
`w × h` image has length `w * h`, and every sample lies in `0..255`.
(Pillow raises on a zero target dimension; the model's `resize` is total,
so theorems asserting successful output require a positive target width.) -/
structure PyImage where
  width : Nat
  height : Nat
  resize : Nat → Nat → List Nat
  resize_length : ∀ w h, (resize w h).length = w * h
  resize_le : ∀ w h, ∀ p ∈ resize w h, p ≤ 255

/-- `DEFAULT_GRADIENT = "@%#*+=-:. "` (darkest → lightest). -/
def DEFAULT_GRADIENT : List Char := ['@', '%', '#', '*', '+', '=', '-', ':', '.', ' ']

/-- Python `int(x)` on a float/rational: truncation toward zero. -/
def int_trunc (q : ℚ) : Int := if 0 ≤ q then q.floor else -(-q).floor

/-- `new_h = max(1, int(orig_h * (width / orig_w) * y_scale))`
(line 88 of `ascii_art.py`), with the float arithmetic modelled exactly. -/
def newHeight (origW origH width : Nat) (yScale : ℚ) : Nat :=
  (max 1 (int_trunc ((origH : ℚ) * ((width : ℚ) / (origW : ℚ)) * yScale))).toNat

/-- The gradient index `p * (n - 1) // 255` computed for a pixel `p`
(line 96 of `ascii_art.py`); `//` on nonnegative ints is `Nat` division. -/
def gradientIndex (g : List Char) (p : Nat) : Nat :=
  p * (g.length - 1) / 255

/-- `gradient[p * (n - 1) // 255]`: the character emitted for pixel `p`.
Out-of-range indexing would raise in Python; `'?'` is the junk value of the
total model (never produced: see the in-bounds theorem for `gradientIndex`). -/
def pixelChar (g : List Char) (p : Nat) : Char :=
  g.getD (gradientIndex g p) '?'

/-- Fuel-indexed worker for `chunkRows`; the fuel only forces structural
termination and never runs out when it starts at `l.length` with a positive
`width`. -/
def chunkRowsGo (width : Nat) : Nat → List Char → List (List Char)
  | _, [] => []
  | 0, _ :: _ => []
  | fuel + 1, c :: cs => (c :: cs).take width :: chunkRowsGo width fuel ((c :: cs).drop width)

/-- `[chars[i : i + width] for i in range(0, len(chars), width)]`:
partition `l` into consecutive slices of `width` characters, the last slice
possibly shorter.  (At `width = 0` Python's `range(0, len, 0)` raises — and
Pillow already rejects the zero-width resize before that — while this total
model returns `[]`; every theorem about successful output therefore carries a
`width ≠ 0` hypothesis so the divergent case is never asserted.) -/
def chunkRows (width : Nat) (l : List Char) : List (List Char) :=
  chunkRowsGo width l.length l

/-- `"\n".join(lines)`: concatenate the rows with a single `'\n'` between
consecutive rows and nothing after the last. -/
def joinNl : List (List Char) → List Char
  | [] => []
  | [r] => r
  | r :: rs => r ++ '\n' :: joinNl rs

/-- Python `s.split("\n")` on the character-list model: splitting the empty
string yields `[""]`, and every `'\n'` separates two (possibly empty) rows. -/
def splitOnNl : List Char → List (List Char)
  | [] => [[]]
  | c :: cs =>
    if c = '\n' then [] :: splitOnNl cs
    else
      match splitOnNl cs with
      | [] => [[c]]
      | r :: rs => (c :: r) :: rs

/-- Shallow embedding of `image_to_ascii` (lines 50–100 of `ascii_art.py`).
The filesystem/decoder collaborator is the function `fs`:
`os.path.isfile(p)` holds iff `(fs p).isSome`, and `Image.open` +
`convert("L")` then yields the decoded bitmap. The steps mirror the source
in order: file check, gradient default + length check, optional reversal,
dimension check, `new_h`, resize, per-pixel mapping, row assembly. -/
def image_to_ascii (fs : String → Option PyImage) (image_path : String)
    (width : Nat) (y_scale : ℚ) (invert : Bool) (gradient : Option (List Char)) :
    Except PyError (List Char) :=
  match fs image_path with
  | none => .error (.fileNotFound ("Input image not found: " ++ image_path))
  | some img =>
    let g0 := gradient.getD DEFAULT_GRADIENT
    if g0.length < 2 then
      .error (.valueError "Gradient must contain at least 2 characters.")
    else
      let g := if invert then g0.reverse else g0
      if img.width = 0 ∨ img.height = 0 then
        .error (.valueError "Image has invalid dimensions (0).")
      else
        let newH := newHeight img.width img.height width y_scale
        let pixels := img.resize width newH
        let chars := pixels.map (pixelChar g)
        .ok (joinNl (chunkRows width chars))

deriving instance DecidableEq for Except

set_option allowUnsafeReducibility true in
attribute [semireducible] Rat.mul Rat.inv

/-! ## Concrete inputs used to witness the theorems

`constImage w h v` models a `w × h` image all of whose pixels resample to the
constant intensity `v` under any resize (box filtering of a constant image is
constant). -/

/-- A uniform image: every resize yields `w' * h'` copies of the sample `v`. -/
def constImage (w h v : Nat) (hv : v ≤ 255) : PyImage where
  width := w
  height := h
  resize := fun w' h' => List.replicate (w' * h') v
  resize_length := fun _ _ => List.length_replicate _ _
  resize_le := fun _ _ _ hp => (List.eq_of_mem_replicate hp) ▸ hv

/-- A 1×1 mid-gray (intensity 128) image. -/
def imgA : PyImage := constImage 1 1 128 (by omega)

/-- A 1×1 white (intensity 255) image. -/
def imgW : PyImage := constImage 1 1 255 (by omega)

/-- A zero-width image (3 pixels tall, 0 wide). -/
def imgZ : PyImage := constImage 0 3 0 (by omega)

/-- A filesystem holding the three test images and nothing else. -/
def fsT : String → Option PyImage := fun p =>
  if p = "a.png" then some imgA
  else if p = "w.png" then some imgW
  else if p = "z.png" then some imgZ
  else none

/-- The effective gradient: the provided-or-default gradient, reversed when
inversion is requested. -/
def effGradient (invert : Bool) (gradient : Option (List Char)) : List Char :=
  if invert then (gradient.getD DEFAULT_GRADIENT).reverse else gradient.getD DEFAULT_GRADIENT

/-! ## Bridging lemmas for `int_trunc` -/

/-- `Rat.floor` agrees with the `Int.floor` of Mathlib's `FloorRing ℚ`. -/
theorem rat_floor_eq_intFloor (q : ℚ) : q.floor = ⌊q⌋ :=
  (Rat.floor_def' q).trans Rat.floor_def.symm

/-- On nonnegative arguments, Python truncation is the floor. -/
theorem int_trunc_of_nonneg {q : ℚ} (h : 0 ≤ q) : int_trunc q = ⌊q⌋ := by
  unfold int_trunc
  rw [if_pos h, rat_floor_eq_intFloor]

/-- Truncation of a nonpositive rational is nonpositive. -/
theorem int_trunc_nonpos {q : ℚ} (h : q ≤ 0) : int_trunc q ≤ 0 := by
  unfold int_trunc
  split
  · rename_i h0
    have hq : q = 0 := le_antisymm h h0
    simp [hq, rat_floor_eq_intFloor]
  · rename_i h0
    rw [rat_floor_eq_intFloor]
    have : (0 : ℚ) ≤ -q := by linarith
    have : (0 : ℤ) ≤ ⌊-q⌋ := Int.floor_nonneg.mpr this
    omega

/-! ## Lemmas about `chunkRows` -/

theorem chunkRowsGo_nil (width fuel : Nat) : chunkRowsGo width fuel [] = [] := by
  cases fuel <;> rfl

/-- The fuel is irrelevant once it covers the list length (for positive width). -/
theorem chunkRowsGo_congr (width : Nat) (hw : width ≠ 0) :
    ∀ fuel₁ fuel₂ (l : List Char), l.length ≤ fuel₁ → l.length ≤ fuel₂ →
      chunkRowsGo width fuel₁ l = chunkRowsGo width fuel₂ l := by
  intro fuel₁
  induction fuel₁ with
  | zero =>
    intro fuel₂ l h1 _
    have : l = [] := List.eq_nil_of_length_eq_zero (Nat.le_zero.mp h1)
    subst this
    rw [chunkRowsGo_nil, chunkRowsGo_nil]
  | succ f ih =>
    intro fuel₂ l h1 h2
    cases l with
    | nil => rw [chunkRowsGo_nil, chunkRowsGo_nil]
    | cons c cs =>
      cases fuel₂ with
      | zero => simp at h2
      | succ f₂ =>
        show ((c :: cs).take width :: chunkRowsGo width f ((c :: cs).drop width))
            = ((c :: cs).take width :: chunkRowsGo width f₂ ((c :: cs).drop width))
        have hlen : ((c :: cs).drop width).length = cs.length + 1 - width := by
          simp [List.length_drop]
        have hle1 : ((c :: cs).drop width).length ≤ f := by
          simp only [List.length_cons] at h1
          omega
        have hle2 : ((c :: cs).drop width).length ≤ f₂ := by
          simp only [List.length_cons] at h2
          omega
        rw [ih f₂ _ hle1 hle2]

/-- Unfolding step for `chunkRows` on a nonempty list. -/
theorem chunkRows_cons (width : Nat) (hw : width ≠ 0) (c : Char) (cs : List Char) :
    chunkRows width (c :: cs) = (c :: cs).take width :: chunkRows width ((c :: cs).drop width) := by
  show chunkRowsGo width (cs.length + 1) (c :: cs) = _
  show (c :: cs).take width :: chunkRowsGo width cs.length ((c :: cs).drop width) = _
  congr 1
  apply chunkRowsGo_congr width hw
  · simp only [List.length_drop, List.length_cons]
    omega
  · exact le_rfl

/-- Reassembling the slices gives back the original list. -/
theorem chunkRows_join (width : Nat) (hw : width ≠ 0) (l : List Char) :
    (chunkRows width l).flatten = l := by
  cases l with
  | nil => rfl
  | cons c cs =>
    rw [chunkRows_cons width hw]
    simp only [List.flatten_cons]
    rw [chunkRows_join width hw ((c :: cs).drop width), List.take_append_drop]
termination_by l.length
decreasing_by
  simp only [List.length_drop, List.length_cons]
  omega

/-- A list of length `width * m` is cut into exactly `m` slices. -/
theorem chunkRows_length (width : Nat) (hw : width ≠ 0) (l : List Char) (m : Nat)
    (hl : l.length = width * m) : (chunkRows width l).length = m := by
  cases l with
  | nil =>
    simp only [List.length_nil] at hl
    have hm : m = 0 := by
      rcases Nat.mul_eq_zero.mp hl.symm with h | h
      · exact absurd h hw
      · exact h
    simp [chunkRows, chunkRowsGo, hm]
  | cons c cs =>
    rw [chunkRows_cons width hw]
    have hm : m ≠ 0 := by
      intro h
      subst h
      simp at hl
    obtain ⟨m', rfl⟩ : ∃ m', m = m' + 1 := ⟨m - 1, by omega⟩
    have hwle : width ≤ cs.length + 1 := by
      simp only [List.length_cons] at hl
      rw [hl]
      calc width = width * 1 := (Nat.mul_one width).symm
      _ ≤ width * (m' + 1) := Nat.mul_le_mul_left width (by omega)
    have hmul : width * (m' + 1) = width * m' + width := Nat.mul_succ width m'
    have hlen : ((c :: cs).drop width).length = width * m' := by
      simp only [List.length_drop, List.length_cons] at *
      omega
    simp only [List.length_cons]
    rw [chunkRows_length width hw ((c :: cs).drop width) m' hlen]
termination_by l.length
decreasing_by
  simp only [List.length_drop, List.length_cons] at *
  omega

/-- When the length is an exact multiple of `width`, every slice — the last
included — has length exactly `width`. -/
theorem chunkRows_mem_length (width : Nat) (hw : width ≠ 0) (l : List Char) (m : Nat)
    (hl : l.length = width * m) (r : List Char) (hr : r ∈ chunkRows width l) :
    r.length = width := by
  cases l with
  | nil => simp [chunkRows, chunkRowsGo] at hr
  | cons c cs =>
    rw [chunkRows_cons width hw] at hr
    have hm : m ≠ 0 := by
      intro h
      subst h
      simp at hl
    obtain ⟨m', rfl⟩ : ∃ m', m = m' + 1 := ⟨m - 1, by omega⟩
    have hwle : width ≤ cs.length + 1 := by
      simp only [List.length_cons] at hl
      rw [hl]
      calc width = width * 1 := (Nat.mul_one width).symm
      _ ≤ width * (m' + 1) := Nat.mul_le_mul_left width (by omega)
    rcases List.mem_cons.mp hr with h | h
    · subst h
      simp only [List.length_take, List.length_cons]
      omega
    · have hmul : width * (m' + 1) = width * m' + width := Nat.mul_succ width m'
      have hlen : ((c :: cs).drop width).length = width * m' := by
        simp only [List.length_drop, List.length_cons] at *
        omega
      exact chunkRows_mem_length width hw ((c :: cs).drop width) m' hlen r h
termination_by l.length
decreasing_by
  simp only [List.length_drop, List.length_cons] at *
  omega

/-! ## Lemmas about `splitOnNl` and `joinNl` -/

/-- Definitional unfolding of `splitOnNl` on a cons cell. -/
theorem splitOnNl_cons (c : Char) (cs : List Char) :
    splitOnNl (c :: cs)
      = if c = '\n' then [] :: splitOnNl cs
        else match splitOnNl cs with
          | [] => [[c]]
          | r :: rs => (c :: r) :: rs := by
  rw [splitOnNl]

theorem splitOnNl_ne_nil (l : List Char) : splitOnNl l ≠ [] := by
  cases l with
  | nil => simp [splitOnNl]
  | cons c cs =>
    unfold splitOnNl
    split
    · simp
    · split
      · simp
      · simp

/-- Splitting a newline-free list yields that single row. -/
theorem splitOnNl_no_nl (l : List Char) (h : '\n' ∉ l) : splitOnNl l = [l] := by
  induction l with
  | nil => rfl
  | cons c cs ih =>
    have hc : c ≠ '\n' := fun hcc => h (hcc ▸ List.mem_cons_self c cs)
    have hcs : '\n' ∉ cs := fun hm => h (List.mem_cons_of_mem c hm)
    unfold splitOnNl
    rw [if_neg hc, ih hcs]

/-- A newline-free prefix followed by `'\n'` splits off as the first row. -/
theorem splitOnNl_append_nl (r t : List Char) (h : '\n' ∉ r) :
    splitOnNl (r ++ '\n' :: t) = r :: splitOnNl t := by
  induction r with
  | nil => simp [splitOnNl]
  | cons c r' ih =>
    have hc : c ≠ '\n' := fun hcc => h (hcc ▸ List.mem_cons_self c r')
    have hr' : '\n' ∉ r' := fun hm => h (List.mem_cons_of_mem c hm)
    show splitOnNl (c :: (r' ++ '\n' :: t)) = _
    rw [splitOnNl_cons, if_neg hc, ih hr']

/-- Splitting inverts joining, for a nonempty list of newline-free rows. -/
theorem splitOnNl_joinNl (rows : List (List Char)) (hne : rows ≠ [])
    (h : ∀ r ∈ rows, '\n' ∉ r) : splitOnNl (joinNl rows) = rows := by
  match rows with
  | [] => exact absurd rfl hne
  | [r] =>
    show splitOnNl r = [r]
    exact splitOnNl_no_nl r (h r (List.mem_singleton_self r))
  | r :: r' :: rs =>
    show splitOnNl (r ++ '\n' :: joinNl (r' :: rs)) = _
    rw [splitOnNl_append_nl r _ (h r (List.mem_cons_self _ _))]
    rw [splitOnNl_joinNl (r' :: rs) (by simp) (fun x hx => h x (List.mem_cons_of_mem r hx))]

/-- Appending a final newline appends an empty row to the split. -/
theorem splitOnNl_append_singleton (l : List Char) :
    splitOnNl (l ++ ['\n']) = splitOnNl l ++ [[]] := by
  induction l with
  | nil => rfl
  | cons c cs ih =>
    show splitOnNl (c :: (cs ++ ['\n'])) = _
    unfold splitOnNl
    by_cases hc : c = '\n'
    · rw [if_pos hc, if_pos hc, ih]
      rfl
    · rw [if_neg hc, if_neg hc, ih]
      rcases hsp : splitOnNl cs with _ | ⟨r, rs⟩
      · exact absurd hsp (splitOnNl_ne_nil cs)
      · rfl

/-! ## Lemmas about the per-pixel mapping -/

/-- The computed gradient index is strictly in bounds (helper). -/
theorem gradientIndex_lt (g : List Char) (p : Nat) (hg : 2 ≤ g.length) (hp : p ≤ 255) :
    gradientIndex g p < g.length := by
  unfold gradientIndex
  have h1 : p * (g.length - 1) / 255 ≤ 255 * (g.length - 1) / 255 :=
    Nat.div_le_div_right (Nat.mul_le_mul_right _ hp)
  have h2 : 255 * (g.length - 1) / 255 = g.length - 1 :=
    Nat.mul_div_cancel_left _ (by omega)
  omega

/-- The emitted character is an element of the gradient (helper). -/
theorem pixelChar_mem (g : List Char) (p : Nat) (hg : 2 ≤ g.length) (hp : p ≤ 255) :
    pixelChar g p ∈ g := by
  unfold pixelChar
  have hlt := gradientIndex_lt g p hg hp
  rw [List.getD_eq_getElem g '?' hlt]
  exact List.getElem_mem hlt

/-! ## Shape lemmas for `image_to_ascii` -/

theorem image_to_ascii_fileNotFound (fs : String → Option PyImage) (path : String)
    (w : Nat) (s : ℚ) (inv : Bool) (g : Option (List Char)) (hfs : fs path = none) :
    image_to_ascii fs path w s inv g
      = .error (.fileNotFound ("Input image not found: " ++ path)) := by
  unfold image_to_ascii
  rw [hfs]

theorem image_to_ascii_badGradient (fs : String → Option PyImage) (path : String)
    (img : PyImage) (w : Nat) (s : ℚ) (inv : Bool) (g : Option (List Char))
    (hfs : fs path = some img) (hg : (g.getD DEFAULT_GRADIENT).length < 2) :
    image_to_ascii fs path w s inv g
      = .error (.valueError "Gradient must contain at least 2 characters.") := by
  unfold image_to_ascii
  rw [hfs]
  exact if_pos hg

theorem image_to_ascii_badDims (fs : String → Option PyImage) (path : String)
    (img : PyImage) (w : Nat) (s : ℚ) (inv : Bool) (g : Option (List Char))
    (hfs : fs path = some img) (hg : ¬ (g.getD DEFAULT_GRADIENT).length < 2)
    (hdim : img.width = 0 ∨ img.height = 0) :
    image_to_ascii fs path w s inv g
      = .error (.valueError "Image has invalid dimensions (0).") := by
  unfold image_to_ascii
  rw [hfs]
  simp only [if_neg hg]
  exact if_pos hdim

theorem image_to_ascii_ok (fs : String → Option PyImage) (path : String)
    (img : PyImage) (w : Nat) (s : ℚ) (inv : Bool) (g : Option (List Char))
    (hfs : fs path = some img) (hg : ¬ (g.getD DEFAULT_GRADIENT).length < 2)
    (hdim : ¬ (img.width = 0 ∨ img.height = 0)) :
    image_to_ascii fs path w s inv g
      = .ok (joinNl (chunkRows w
          ((img.resize w (newHeight img.width img.height w s)).map
            (pixelChar (effGradient inv g))))) := by
  unfold image_to_ascii effGradient
  rw [hfs]
  simp only [if_neg hg, if_neg hdim]

/-! ## Further helper lemmas -/

/-- `max(1, …)` makes the resize height at least one. -/
theorem one_le_newHeight (ow oh w : Nat) (s : ℚ) : 1 ≤ newHeight ow oh w s := by
  unfold newHeight
  have h := le_max_left 1 (int_trunc ((oh : ℚ) * ((w : ℚ) / (ow : ℚ)) * s))
  set m := max 1 (int_trunc ((oh : ℚ) * ((w : ℚ) / (ow : ℚ)) * s)) with hm
  omega

/-- Reversal does not change the gradient length. -/
theorem effGradient_length (inv : Bool) (g : Option (List Char)) :
    (effGradient inv g).length = (g.getD DEFAULT_GRADIENT).length := by
  unfold effGradient
  cases inv <;> simp

/-- Reversal does not change the gradient's character set. -/
theorem effGradient_mem (inv : Bool) (g : Option (List Char)) (c : Char) :
    c ∈ effGradient inv g ↔ c ∈ g.getD DEFAULT_GRADIENT := by
  unfold effGradient
  cases inv <;> simp

/-- In a successful conversion the gradient length check has passed. -/
theorem length_ge_two_of_ok (fs : String → Option PyImage) (path : String)
    (img : PyImage) (w : Nat) (s : ℚ) (inv : Bool) (g : Option (List Char))
    (out : List Char) (hfs : fs path = some img)
    (hok : image_to_ascii fs path w s inv g = .ok out) :
    ¬ (g.getD DEFAULT_GRADIENT).length < 2 := by
  intro hlt
  rw [image_to_ascii_badGradient fs path img w s inv g hfs hlt] at hok
  cases hok

/-- In a successful conversion the dimension check has passed. -/
theorem dims_ne_zero_of_ok (fs : String → Option PyImage) (path : String)
    (img : PyImage) (w : Nat) (s : ℚ) (inv : Bool) (g : Option (List Char))
    (out : List Char) (hfs : fs path = some img)
    (hok : image_to_ascii fs path w s inv g = .ok out) :
    ¬ (img.width = 0 ∨ img.height = 0) := by
  intro hdim
  by_cases hg : (g.getD DEFAULT_GRADIENT).length < 2
  · rw [image_to_ascii_badGradient fs path img w s inv g hfs hg] at hok
    cases hok
  · rw [image_to_ascii_badDims fs path img w s inv g hfs hg hdim] at hok
    cases hok

/-- In a successful conversion, the output is the joined chunked character map
and the split of the output recovers the rows (for a newline-free gradient). -/
theorem ok_structure (fs : String → Option PyImage) (path : String)
    (img : PyImage) (w : Nat) (s : ℚ) (inv : Bool) (g : Option (List Char))
    (out : List Char) (hfs : fs path = some img) (hw : w ≠ 0)
    (hnl : '\n' ∉ g.getD DEFAULT_GRADIENT)
    (hok : image_to_ascii fs path w s inv g = .ok out) :
    splitOnNl out
      = chunkRows w ((img.resize w (newHeight img.width img.height w s)).map
          (pixelChar (effGradient inv g))) := by
  have hg2 := length_ge_two_of_ok fs path img w s inv g out hfs hok
  have hdim := dims_ne_zero_of_ok fs path img w s inv g out hfs hok
  rw [image_to_ascii_ok fs path img w s inv g hfs hg2 hdim] at hok
  have hout := Except.ok.inj hok
  subst hout
  set newH := newHeight img.width img.height w s with hnewH
  set pixels := img.resize w newH with hpixels
  set chars := pixels.map (pixelChar (effGradient inv g)) with hchars
  have hgeff2 : 2 ≤ (effGradient inv g).length := by
    rw [effGradient_length]
    omega
  have hcharlen : chars.length = w * newH := by
    rw [hchars, List.length_map, hpixels, img.resize_length]
  have hrows_len : (chunkRows w chars).length = newH :=
    chunkRows_length w hw chars newH hcharlen
  have hrows_ne : chunkRows w chars ≠ [] := by
    intro hnil
    have := one_le_newHeight img.width img.height w s
    rw [hnil] at hrows_len
    simp at hrows_len
    omega
  have hrows_nl : ∀ r ∈ chunkRows w chars, '\n' ∉ r := by
    intro r hr hmem
    have hflat : ('\n' : Char) ∈ (chunkRows w chars).flatten :=
      List.mem_flatten.mpr ⟨r, hr, hmem⟩
    rw [chunkRows_join w hw chars] at hflat
    rw [hchars] at hflat
    rcases List.mem_map.mp hflat with ⟨p, hp, hpc⟩
    have hp255 : p ≤ 255 := img.resize_le w newH p (hpixels ▸ hp)
    have : pixelChar (effGradient inv g) p ∈ effGradient inv g :=
      pixelChar_mem (effGradient inv g) p hgeff2 hp255
    rw [hpc] at this
    exact hnl ((effGradient_mem inv g '\n').mp this)
  exact splitOnNl_joinNl (chunkRows w chars) hrows_ne hrows_nl

/-! ## The verified claims -/

/-- C1: for every resized pixel intensity `p` (all lie in `[0,255]`) and the
effective — possibly reversed — gradient of length `n ≥ 2`, the character
emitted for that pixel is `gradient[p * (n - 1) // 255]`: the flat character
sequence of the output (its rows re-joined) is exactly the per-pixel map of
`pixelChar`; in particular, with the default 10-character gradient and
`invert = false`, intensity 0 yields `'@'`, 128 yields index 4 = `'+'`, and
255 yields `' '`. -/
theorem claim_pixel_formula (fs : String → Option PyImage) (path : String)
    (img : PyImage) (w : Nat) (s : ℚ) (inv : Bool) (g : List Char)
    (out : List Char) (hfs : fs path = some img) (hw : w ≠ 0)
    (hnl : '\n' ∉ g)
    (hok : image_to_ascii fs path w s inv (some g) = .ok out) :
    (splitOnNl out).flatten
        = (img.resize w (newHeight img.width img.height w s)).map
            (pixelChar (effGradient inv (some g)))
      ∧ pixelChar DEFAULT_GRADIENT 0 = '@'
      ∧ pixelChar DEFAULT_GRADIENT 128 = '+'
      ∧ pixelChar DEFAULT_GRADIENT 255 = ' ' := by
  have hnl' : '\n' ∉ (some g : Option (List Char)).getD DEFAULT_GRADIENT := by
    simpa using hnl
  have hsplit := ok_structure fs path img w s inv (some g) out hfs hw hnl' hok
  refine ⟨?_, by decide, by decide, by decide⟩
  rw [hsplit]
  exact chunkRows_join w hw _

theorem claim_pixel_formula_witness :
    ((splitOnNl ['+']).flatten
        = (imgA.resize 1 (newHeight imgA.width imgA.height 1 1)).map
            (pixelChar (effGradient false (some DEFAULT_GRADIENT))))
      ∧ pixelChar DEFAULT_GRADIENT 0 = '@'
      ∧ pixelChar DEFAULT_GRADIENT 128 = '+'
      ∧ pixelChar DEFAULT_GRADIENT 255 = ' ' :=
  claim_pixel_formula fsT "a.png" imgA 1 1 false DEFAULT_GRADIENT ['+']
    rfl (by decide) (by decide) (by decide)

/-- C2 (amended): for every valid image and parameters with `targetWidth = W ≥ 1`
whose gradient contains no newline character, the returned string split on
`'\n'` has exactly `newHeight` rows, every row has length exactly `W`, and
there is no trailing newline after the last row.  (The newline-free proviso is
forced: a gradient may legally contain `'\n'`, and then the split has more
rows — see the counterexample.) -/
theorem claim_rectangular (fs : String → Option PyImage) (path : String)
    (img : PyImage) (w : Nat) (s : ℚ) (inv : Bool) (g : Option (List Char))
    (out : List Char) (hfs : fs path = some img) (hw : 1 ≤ w)
    (hnl : '\n' ∉ g.getD DEFAULT_GRADIENT)
    (hok : image_to_ascii fs path w s inv g = .ok out) :
    (splitOnNl out).length = newHeight img.width img.height w s
      ∧ (∀ r ∈ splitOnNl out, r.length = w)
      ∧ ∀ l', out ≠ l' ++ ['\n'] := by
  have hw0 : w ≠ 0 := by omega
  have hsplit := ok_structure fs path img w s inv g out hfs hw0 hnl hok
  set newH := newHeight img.width img.height w s with hnewH
  set chars := (img.resize w newH).map (pixelChar (effGradient inv g)) with hchars
  have hcharlen : chars.length = w * newH := by
    rw [hchars, List.length_map, img.resize_length]
  have hlen : (splitOnNl out).length = newH := by
    rw [hsplit]
    exact chunkRows_length w hw0 chars newH hcharlen
  have hrl : ∀ r ∈ splitOnNl out, r.length = w := by
    intro r hr
    rw [hsplit] at hr
    exact chunkRows_mem_length w hw0 chars newH hcharlen r hr
  refine ⟨hlen, hrl, ?_⟩
  intro l' hl'
  have hmem : ([] : List Char) ∈ splitOnNl out := by
    rw [hl', splitOnNl_append_singleton]
    exact List.mem_append_right _ (List.mem_singleton_self _)
  have := hrl [] hmem
  simp at this
  omega

theorem claim_rectangular_witness :
    (splitOnNl ['+', '+', '\n', '+', '+']).length = newHeight imgA.width imgA.height 2 1
      ∧ (∀ r ∈ splitOnNl ['+', '+', '\n', '+', '+'], r.length = 2)
      ∧ ∀ l', ['+', '+', '\n', '+', '+'] ≠ l' ++ ['\n'] :=
  claim_rectangular fsT "a.png" imgA 2 1 false none ['+', '+', '\n', '+', '+']
    rfl (by decide) (by decide) (by decide)

/-- C2 (counterexample to the unamended claim): the gradient `"@\n"` is valid
(length 2), yet converting a 1×1 white image at width 1 returns the string
`"\n"`, whose split on `'\n'` has 2 rows of length 0 — not `newHeight = 1`
rows of length 1. -/
theorem claim_rectangular_cex :
    image_to_ascii fsT "w.png" 1 1 false (some ['@', '\n']) = .ok ['\n']
      ∧ splitOnNl ['\n'] = [[], []]
      ∧ newHeight imgW.width imgW.height 1 1 = 1 := by
  refine ⟨by decide, by decide, by decide⟩

/-- C3: inversion is exactly reversal of the gradient — for every filesystem,
path, width and y-scale, converting with `invert = true` and gradient `G`
returns the very same result as converting with `invert = false` and the
reversed gradient. -/
theorem claim_invert_equiv (fs : String → Option PyImage) (path : String)
    (w : Nat) (s : ℚ) (g : List Char) :
    image_to_ascii fs path w s true (some g)
      = image_to_ascii fs path w s false (some g.reverse) := by
  unfold image_to_ascii
  cases fs path with
  | none => rfl
  | some img => simp

/-- C4: for positive dimensions, width and y-scale, the resize height equals
`max(1, ⌊origH * (targetWidth / origW) * yScale⌋)` (Python's `int` truncation
coincides with the floor on this nonnegative value), and is therefore at
least 1. -/
theorem claim_newHeight_formula (ow oh w : Nat) (s : ℚ)
    (how : 0 < ow) (hoh : 0 < oh) (hw : 0 < w) (hs : 0 < s) :
    newHeight ow oh w s = (max 1 ⌊(oh : ℚ) * ((w : ℚ) / (ow : ℚ)) * s⌋).toNat
      ∧ 1 ≤ newHeight ow oh w s := by
  constructor
  · have hq : 0 ≤ (oh : ℚ) * ((w : ℚ) / (ow : ℚ)) * s := by positivity
    unfold newHeight
    rw [int_trunc_of_nonneg hq]
  · exact one_le_newHeight ow oh w s

theorem claim_newHeight_formula_witness :
    newHeight 2 2 2 1
        = (max 1 ⌊((2 : Nat) : ℚ) * (((2 : Nat) : ℚ) / ((2 : Nat) : ℚ)) * 1⌋).toNat
      ∧ 1 ≤ newHeight 2 2 2 1 :=
  claim_newHeight_formula 2 2 2 1 (by decide) (by decide) (by decide) (by norm_num)

/-- C5: whenever the path does name an image, a provided gradient of length
less than 2 makes the conversion fail with the gradient `ValueError`
(`InvalidParameterError`), whatever the image and the other parameters. -/
theorem claim_short_gradient (fs : String → Option PyImage) (path : String)
    (img : PyImage) (w : Nat) (s : ℚ) (inv : Bool) (g : List Char)
    (hfs : fs path = some img) (hg : g.length < 2) :
    image_to_ascii fs path w s inv (some g)
      = .error (.valueError "Gradient must contain at least 2 characters.") :=
  image_to_ascii_badGradient fs path img w s inv (some g) hfs (by simpa using hg)

theorem claim_short_gradient_witness :
    image_to_ascii fsT "a.png" 100 (1/2) false (some ['x'])
      = .error (.valueError "Gradient must contain at least 2 characters.") :=
  claim_short_gradient fsT "a.png" imgA 100 (1/2) false ['x'] rfl (by decide)

/-- C6 (amended): a zero-width or zero-height source image makes the
conversion fail with the dimension `ValueError` (`InvalidImageError`) —
provided the effective gradient is valid (length ≥ 2), since the gradient
check runs first and otherwise wins (see the counterexample). -/
theorem claim_zero_dims (fs : String → Option PyImage) (path : String)
    (img : PyImage) (w : Nat) (s : ℚ) (inv : Bool) (g : Option (List Char))
    (hfs : fs path = some img) (hg : 2 ≤ (g.getD DEFAULT_GRADIENT).length)
    (hdim : img.width = 0 ∨ img.height = 0) :
    image_to_ascii fs path w s inv g
      = .error (.valueError "Image has invalid dimensions (0).") :=
  image_to_ascii_badDims fs path img w s inv g hfs (by omega) hdim

theorem claim_zero_dims_witness :
    image_to_ascii fsT "z.png" 10 1 false none
      = .error (.valueError "Image has invalid dimensions (0).") :=
  claim_zero_dims fsT "z.png" imgZ 10 1 false none rfl (by decide) (Or.inl rfl)

/-- C6 (counterexample to the unamended claim): a zero-width image converted
with the length-1 gradient `"x"` fails with the gradient error, not the
dimension error — the claim's "always fails with `InvalidImageError`" does
not hold for every parameter set. -/
theorem claim_zero_dims_cex :
    image_to_ascii fsT "z.png" 10 1 false (some ['x'])
        = .error (.valueError "Gradient must contain at least 2 characters.")
      ∧ PyError.valueError "Gradient must contain at least 2 characters."
          ≠ PyError.valueError "Image has invalid dimensions (0)." :=
  ⟨by decide, by decide⟩

/-- C7 (amended): the code does not validate `y_scale`; for `yScale ≤ 0` (with
an existing image of nonzero dimensions, a valid gradient and a positive
target width — at width 0 the resize itself raises) the conversion succeeds
instead of failing — `int(...)` is then nonpositive, `max(1, ·)` clamps the
resize height to exactly 1, and a one-row output is returned. -/
theorem claim_yscale_nonpositive (fs : String → Option PyImage) (path : String)
    (img : PyImage) (w : Nat) (s : ℚ) (inv : Bool) (g : Option (List Char))
    (hfs : fs path = some img) (hw : w ≠ 0)
    (hg : 2 ≤ (g.getD DEFAULT_GRADIENT).length)
    (hW : img.width ≠ 0) (hH : img.height ≠ 0) (hs : s ≤ 0) :
    newHeight img.width img.height w s = 1
      ∧ image_to_ascii fs path w s inv g
          = .ok (joinNl (chunkRows w
              ((img.resize w 1).map (pixelChar (effGradient inv g))))) := by
  have hq : (img.height : ℚ) * ((w : ℚ) / (img.width : ℚ)) * s ≤ 0 :=
    mul_nonpos_of_nonneg_of_nonpos (by positivity) hs
  have h1 : newHeight img.width img.height w s = 1 := by
    unfold newHeight
    have h2 := int_trunc_nonpos hq
    set t := int_trunc ((img.height : ℚ) * ((w : ℚ) / (img.width : ℚ)) * s) with ht
    have hmax : max 1 t = 1 := max_eq_left (by omega)
    rw [hmax]
    rfl
  refine ⟨h1, ?_⟩
  rw [image_to_ascii_ok fs path img w s inv g hfs (by omega) (not_or.mpr ⟨hW, hH⟩), h1]

theorem claim_yscale_nonpositive_witness :
    newHeight imgA.width imgA.height 1 0 = 1
      ∧ image_to_ascii fsT "a.png" 1 0 false none
          = .ok (joinNl (chunkRows 1
              ((imgA.resize 1 1).map (pixelChar (effGradient false none))))) :=
  claim_yscale_nonpositive fsT "a.png" imgA 1 0 false none
    rfl (by decide) (by decide) (by decide) (by decide) le_rfl

/-- C7 (counterexample to the unamended claim): with `y_scale = 0 ≤ 0` the
conversion of an existing image succeeds and returns `"+"` — it does not fail
with any error. -/
theorem claim_yscale_cex :
    image_to_ascii fsT "a.png" 1 0 false none = .ok ['+'] := by
  decide

/-- C8: the conversion is a pure, deterministic function of its inputs —
converting twice with identical filesystem, path, width, y-scale, inversion
flag and gradient yields identical output. -/
theorem claim_deterministic (fs : String → Option PyImage) (path : String)
    (w : Nat) (s : ℚ) (inv : Bool) (g : Option (List Char)) :
    image_to_ascii fs path w s inv g = image_to_ascii fs path w s inv g := rfl

/-- C9: for every pixel intensity `p ≤ 255` and gradient of length `n ≥ 2`,
the computed index `p * (n - 1) // 255` lies in `[0, n-1]` — strictly below
`n` — so the lookup is in bounds and the emitted character is a genuine
gradient element. -/
theorem claim_index_in_bounds (g : List Char) (p : Nat)
    (hg : 2 ≤ g.length) (hp : p ≤ 255) :
    gradientIndex g p ≤ g.length - 1 ∧ gradientIndex g p < g.length
      ∧ pixelChar g p ∈ g :=
  have hlt := gradientIndex_lt g p hg hp
  ⟨by omega, hlt, pixelChar_mem g p hg hp⟩

theorem claim_index_in_bounds_witness :
    gradientIndex DEFAULT_GRADIENT 128 ≤ DEFAULT_GRADIENT.length - 1
      ∧ gradientIndex DEFAULT_GRADIENT 128 < DEFAULT_GRADIENT.length
      ∧ pixelChar DEFAULT_GRADIENT 128 ∈ DEFAULT_GRADIENT :=
  claim_index_in_bounds DEFAULT_GRADIENT 128 (by decide) (by decide)

/-- C10: the file-existence check precedes gradient validation — for a path
naming no file the conversion fails with `FileNotFoundError` and never with a
`ValueError`, even when the gradient is also invalid. -/
theorem claim_missing_file (fs : String → Option PyImage) (path : String)
    (w : Nat) (s : ℚ) (inv : Bool) (g : Option (List Char))
    (hfs : fs path = none) :
    image_to_ascii fs path w s inv g
        = .error (.fileNotFound ("Input image not found: " ++ path))
      ∧ ∀ msg, image_to_ascii fs path w s inv g ≠ .error (.valueError msg) := by
  have h := image_to_ascii_fileNotFound fs path w s inv g hfs
  refine ⟨h, fun msg hh => ?_⟩
  rw [h] at hh
  exact PyError.noConfusion (Except.error.inj hh)

theorem claim_missing_file_witness :
    image_to_ascii (fun _ => none) "missing.png" 100 (1/2) false (some ['x'])
        = .error (.fileNotFound ("Input image not found: " ++ "missing.png"))
      ∧ ∀ msg, image_to_ascii (fun _ => none) "missing.png" 100 (1/2) false (some ['x'])
          ≠ .error (.valueError msg) :=
  claim_missing_file (fun _ => none) "missing.png" 100 (1/2) false (some ['x']) rfl
